import Mathlib

/-!
Shallow embedding of the qinn query-engine core (src/qinn.ts): the
Enumerable combinators, the synchronous and asynchronous memoization
layer, the recursive three-way partition ordering engine, and the
aggregation terminals.  A Sequence is modelled as the list of elements it
yields; JavaScript numbers that only ever hold integers are modelled as
Int (rationals where division occurs), Map and Set state as association
lists respectively membership lists, and promises as identifiers
allocated in creation order.
-/

namespace Qinn

variable {α β κ : Type}

/-- Association-list lookup, modelling JavaScript Map.get / Map.has. -/
def alookup [DecidableEq κ] (k : κ) : List (κ × β) → Option β
  | [] => none
  | (k', v) :: rest => if k = k' then some v else alookup k rest

/-- Enumerable.range: new Array(count) throws a RangeError (message
"Invalid array length") for a negative count; otherwise the count
consecutive integers starting at start are materialized eagerly at call
time, before the Enumerable is returned. -/
def range (start count : Int) : Except String (List Int) :=
  if count < 0 then .error "Invalid array length"
  else .ok ((List.range count.toNat).map (fun i => start + (i : Int)))

/-- A Sequence source: built from a synchronous iterable or from an
asynchronous-only iterable (one with no Symbol.iterator). -/
inductive Source (α : Type) where
  | sync (xs : List α)
  | async (xs : List α)

/-- The message of the Error thrown by Enumerable[Symbol.iterator] when
the wrapped iterable has no synchronous iterator. -/
def modeMismatchMsg : String := "This enumerable is async — use for await or toArrayAsync()"

/-- Synchronous pull (Enumerable[Symbol.iterator]): succeeds on
synchronous sources, throws on asynchronous-only sources. -/
def syncIterate : Source α → Except String (List α)
  | .sync xs => .ok xs
  | .async _ => .error modeMismatchMsg

/-- Composite run of .select(f).take(n) driven to completion by a
terminal consumer.  The Int counter i mirrors take's counter, which
starts at 1; each upstream pull invokes the select mapper once; take's
loop body has no break, so the loop keeps pulling from upstream after n
elements have been yielded.  Returns the yielded elements together with
the number of mapper invocations. -/
def selectTakeRun (f : α → β) (n : Int) : Int → List α → List β × Nat
  | _, [] => ([], 0)
  | i, x :: xs =>
    let y := f x
    if i ≤ n then
      let r := selectTakeRun f n (i + 1) xs
      (y :: r.1, r.2 + 1)
    else
      let r := selectTakeRun f n i xs
      (r.1, r.2 + 1)

/-- Enumerable.first: returns the first element (optionally the first one
matching the predicate), or undefined when there is none. -/
def first (p : Option (α → Bool)) : List α → Option α
  | [] => none
  | x :: xs =>
    match p with
    | some pred => if pred x then some x else first p xs
    | none => some x

/-- Enumerable.count with optional predicate. -/
def count (p : Option (α → Bool)) : List α → Nat
  | [] => 0
  | x :: xs =>
    match p with
    | some pred => if pred x then count p xs + 1 else count p xs
    | none => count p xs + 1

/-- Enumerable.sum: adds the selected value, or Number(item) when no
selector is given; the coerce argument stands for that best-effort
numeric coercion. -/
def sum (sel : Option (α → Int)) (coerce : α → Int) (l : List α) : Int :=
  l.foldl (fun acc x => acc + match sel with | some s => s x | none => coerce x) 0

/-- Enumerable.average: accumulates sum and count in one pass and returns
0 for an empty sequence, sum / count otherwise. -/
def average (sel : Option (α → ℚ)) (coerce : α → ℚ) (l : List α) : ℚ :=
  let p := l.foldl
    (fun acc x => (acc.1 + (match sel with | some s => s x | none => coerce x), acc.2 + 1))
    ((0 : ℚ), (0 : Nat))
  if p.2 = 0 then 0 else p.1 / (p.2 : ℚ)

/-- Enumerable.max: hasValue/max loop; undefined on an empty sequence. -/
def maxT [LinearOrder α] (l : List α) : Option α :=
  l.foldl
    (fun acc x => match acc with
      | none => some x
      | some m => if m < x then some x else some m)
    none

/-- Enumerable.min: hasValue/min loop; undefined on an empty sequence. -/
def minT [LinearOrder α] (l : List α) : Option α :=
  l.foldl
    (fun acc x => match acc with
      | none => some x
      | some m => if x < m then some x else some m)
    none

/-- Enumerable.all: false at the first non-match, vacuously true. -/
def all (p : α → Bool) : List α → Bool
  | [] => true
  | x :: xs => if p x then all p xs else false

/-- Enumerable.any with optional predicate: true at the first match or,
with no predicate, at the first element. -/
def any (p : Option (α → Bool)) : List α → Bool
  | [] => false
  | x :: xs =>
    match p with
    | some pred => if pred x then true else any p xs
    | none => true

/-- Enumerable.contains: strict equality scan. -/
def containsT [DecidableEq α] (v : α) : List α → Bool
  | [] => false
  | x :: xs => if x = v then true else containsT v xs

/-- One pass of union's generator loop: elements whose key is already in
the seen set are skipped, otherwise the key is added and the element
yielded.  Returns the yielded elements and the final seen set. -/
def unionLoop [DecidableEq κ] (key : α → κ) : List κ → List α → List α × List κ
  | seen, [] => ([], seen)
  | seen, x :: xs =>
    if key x ∈ seen then unionLoop key seen xs
    else
      let r := unionLoop key (key x :: seen) xs
      (x :: r.1, r.2)

/-- Enumerable.union: two loops, over self and then over other, sharing
one seen set of keys. -/
def union [DecidableEq κ] (key : α → κ) (self other : List α) : List α :=
  let r1 := unionLoop key [] self
  let r2 := unionLoop key r1.2 other
  r1.1 ++ r2.1

/-- Modelled from the spec: first-seen-order deduplication by derived
key, the claimed value of union. -/
def firstSeenDedup [DecidableEq κ] (key : α → κ) : List α → List α
  | [] => []
  | x :: xs => x :: firstSeenDedup key (xs.filter (fun y => !decide (key y = key x)))
termination_by l => l.length
decreasing_by exact Nat.lt_succ_of_le (List.length_filter_le _ _)

/-- Enumerable.intersect as implemented: the Set is built from other's
raw elements (enumerable.toSet()), and each self element's derived key is
tested for membership in that element set.  The key type coincides with
the element type, which is the only case in which the membership test can
succeed at all. -/
def intersect [DecidableEq α] (key : α → α) (self other : List α) : List α :=
  self.filter (fun x => decide (key x ∈ other))

/-- Modelled from the spec: intersect is claimed to materialize other
into a full set of derived keys and keep the elements of self whose
derived key is present in that key set. -/
def intersectSpec [DecidableEq α] (key : α → α) (self other : List α) : List α :=
  self.filter (fun x => decide (key x ∈ other.map key))

/-- A JavaScript object instance: ref is the identity of the instance,
val its enumerable-property structure.  Set membership and strict
equality see the whole value, identity included; JSON.stringify sees only
the structure. -/
structure Obj where
  ref : Nat
  val : Int
deriving DecidableEq, Repr

/-- The default key derivation JSON.stringify: a canonical deterministic
serialization of the enumerable properties; instance identity is not
serialized. -/
def jsonEncode (o : Obj) : String := "\x7b\"val\":" ++ toString o.val ++ "\x7d"

/-- Enumerable.distinct's generator loop: seen is a Set of the elements
themselves. -/
def distinctLoop [DecidableEq α] : List α → List α → List α
  | _, [] => []
  | seen, x :: xs =>
    if x ∈ seen then distinctLoop seen xs else x :: distinctLoop (x :: seen) xs

/-- Enumerable.distinct: first occurrence of each element under Set
(strict-equality) membership. -/
def distinct [DecidableEq α] (l : List α) : List α := distinctLoop [] l

/-- Enumerable.memoize's per-traversal generator: walks the input,
serving cache hits and computing then caching misses.  calls logs the key
of every invocation of fn, most recent first.  Returns the yielded
results, the cache and the call log. -/
def memoTraverse [DecidableEq κ] (fn : α → β) (key : α → κ) :
    List α → List (κ × β) → List κ → List β × List (κ × β) × List κ
  | [], c, calls => ([], c, calls)
  | x :: xs, c, calls =>
    match alookup (key x) c with
    | some v =>
      let r := memoTraverse fn key xs c calls
      (v :: r.1, r.2)
    | none =>
      let r := memoTraverse fn key xs ((key x, fn x) :: c) (key x :: calls)
      (fn x :: r.1, r.2)

/-- The accumulated state of one memoized Sequence over its lifetime: the
cache lives in the closure created by the memoize call and is shared by
every traversal. -/
structure MemoRun (β κ : Type) where
  outs : List (List β)
  cache : List (κ × β)
  calls : List κ

/-- m full traversals of one memoized Sequence over the same repeatable
source xs, threading the one shared cache. -/
def memoLifetime [DecidableEq κ] (fn : α → β) (key : α → κ) (xs : List α) :
    Nat → MemoRun β κ
  | 0 => ⟨[], [], []⟩
  | m + 1 =>
    let r := memoLifetime fn key xs m
    let t := memoTraverse fn key xs r.cache r.calls
    ⟨r.outs ++ [t.1], t.2.1, t.2.2⟩

/-- Modelled from the spec: every occurrence of a key yields the result
of fn on the first input element carrying that key. -/
def memoSpec [DecidableEq κ] (fn : α → β) (key : α → κ) (xs : List α) : List β :=
  xs.map (fun x => fn ((xs.find? (fun y => decide (key y = key x))).getD x))

/-- The value that memoize's generator serves for element x of a
traversal of xs that started with cache c: the cached value on a hit,
otherwise fn applied to the first element of xs sharing x's key (the
occurrence that computes and caches the result). -/
def memoVal [DecidableEq κ] (fn : α → β) (key : α → κ) (c : List (κ × β))
    (xs : List α) (x : α) : β :=
  match alookup (key x) c with
  | some v => v
  | none => fn ((xs.find? (fun y => decide (key y = key x))).getD x)

/-- The shared state of one memoizeAsync Sequence: the cache maps keys to
promise ids, nextId allocates promise identities in creation order, calls
logs the key of every fn invocation. -/
structure AState (κ : Type) where
  cache : List (κ × Nat)
  nextId : Nat
  calls : List κ

/-- One pull step of a memoizeAsync traversal for element x: the cache
check, the fn invocation and the cache insert run with no await between
them, so the whole step is atomic under cooperative scheduling, and the
promise is recorded in the cache before it is first awaited at the yield.
Returns the promise id handed to the consumer. -/
def asyncStep [DecidableEq κ] (key : α → κ) (x : α) (s : AState κ) : Nat × AState κ :=
  match alookup (key x) s.cache with
  | some fid => (fid, s)
  | none => (s.nextId, ⟨(key x, s.nextId) :: s.cache, s.nextId + 1, key x :: s.calls⟩)

/-- Cooperative interleaving of two concurrent traversals of one
memoizeAsync Sequence: the schedule picks which traversal advances by one
element at each suspension point; a tick for an exhausted traversal does
nothing.  Returns the (key, promise id) pairs yielded to each of the two
consumers and the final shared state. -/
def interleave [DecidableEq κ] (key : α → κ) :
    List Bool → List α → List α → AState κ →
    List (κ × Nat) × List (κ × Nat) × AState κ
  | [], _, _, s => ([], [], s)
  | true :: sch, [], ys, s => interleave key sch [] ys s
  | true :: sch, x :: xs, ys, s =>
    let p := asyncStep key x s
    let r := interleave key sch xs ys p.2
    ((key x, p.1) :: r.1, r.2.1, r.2.2)
  | false :: sch, xs, [], s => interleave key sch xs [] s
  | false :: sch, xs, y :: ys, s =>
    let p := asyncStep key y s
    let r := interleave key sch xs ys p.2
    (r.1, (key y, p.1) :: r.2.1, r.2.2)

/-- Enumerable.orderBy: the upstream is materialized, then recursively
partitioned around the derived key of the last element into the
strictly-before, equal and strictly-after buckets; collections of length
at most one are yielded verbatim. -/
def orderBy [LinearOrder κ] (s : α → κ) : List α → List α
  | [] => []
  | [x] => [x]
  | x :: y :: rest =>
    orderBy s ((x :: y :: rest).filter (fun a => decide (s a < s (rest.getLastD y)))) ++
    (x :: y :: rest).filter (fun a => decide (s a = s (rest.getLastD y))) ++
    orderBy s ((x :: y :: rest).filter (fun a => decide (s (rest.getLastD y) < s a)))
termination_by l => l.length
decreasing_by
  · exact List.length_filter_lt_length_iff_exists.mpr
      ⟨rest.getLastD y, List.mem_cons_of_mem x (List.getLastD_mem_cons rest y), by simp⟩
  · exact List.length_filter_lt_length_iff_exists.mpr
      ⟨rest.getLastD y, List.mem_cons_of_mem x (List.getLastD_mem_cons rest y), by simp⟩

/-- Enumerable.orderByDescending: the same partition scheme with the
strict comparisons reversed. -/
def orderByDescending [LinearOrder κ] (s : α → κ) : List α → List α
  | [] => []
  | [x] => [x]
  | x :: y :: rest =>
    orderByDescending s ((x :: y :: rest).filter (fun a => decide (s (rest.getLastD y) < s a))) ++
    (x :: y :: rest).filter (fun a => decide (s a = s (rest.getLastD y))) ++
    orderByDescending s ((x :: y :: rest).filter (fun a => decide (s a < s (rest.getLastD y))))
termination_by l => l.length
decreasing_by
  · exact List.length_filter_lt_length_iff_exists.mpr
      ⟨rest.getLastD y, List.mem_cons_of_mem x (List.getLastD_mem_cons rest y), by simp⟩
  · exact List.length_filter_lt_length_iff_exists.mpr
      ⟨rest.getLastD y, List.mem_cons_of_mem x (List.getLastD_mem_cons rest y), by simp⟩

/-- C8: a Sequence built from an asynchronous-only source fails on
synchronous pull with the ModeMismatch error whose message directs the
caller to asynchronous consumption (for await / toArrayAsync), while a
Sequence built from a synchronous source never produces this error on
synchronous pull. -/
theorem syncIterate_mode_mismatch (xs : List α) :
    syncIterate (Source.async xs) =
      Except.error "This enumerable is async — use for await or toArrayAsync()" ∧
    syncIterate (Source.sync xs) = Except.ok xs :=
  ⟨rfl, rfl⟩

/-- C9: range throws at call time for every negative count (invalid
array length) rather than returning an empty sequence, and for count ≥ 0
eagerly materializes the count consecutive integers from start. -/
theorem range_negative_throws (start count : Int) :
    (count < 0 → range start count = Except.error "Invalid array length") ∧
    (0 ≤ count → range start count =
      Except.ok ((List.range count.toNat).map (fun i => start + (i : Int)))) := by
  constructor
  · intro h; simp [range, h]
  · intro h; simp [range, not_lt.mpr h]

/-- Witness for C9 at start = 5 with count = -1 and count = 3. -/
theorem range_negative_throws_witness :
    ((-1 : Int) < 0 ∧ range 5 (-1) = Except.error "Invalid array length") ∧
    ((0 : Int) ≤ 3 ∧ range 5 3 =
      Except.ok ((List.range (3 : Int).toNat).map (fun i => (5 : Int) + (i : Int)))) :=
  ⟨⟨by decide, (range_negative_throws 5 (-1)).1 (by decide)⟩,
   ⟨by decide, (range_negative_throws 5 3).2 (by decide)⟩⟩

/-- C6: on an empty sequence every terminal returns exactly its
policy-table value: first is absent, count is 0, sum is 0, average is 0,
max and min are absent, all is vacuously true, any is false with or
without a predicate, and contains is false. -/
theorem empty_terminal_policy [LinearOrder α] [DecidableEq α] :
    (∀ p : Option (α → Bool), first p [] = none) ∧
    (∀ p : Option (α → Bool), count p [] = 0) ∧
    (∀ (sel : Option (α → Int)) (coerce : α → Int), sum sel coerce [] = 0) ∧
    (∀ (sel : Option (α → ℚ)) (coerce : α → ℚ), average sel coerce [] = 0) ∧
    maxT ([] : List α) = none ∧
    minT ([] : List α) = none ∧
    (∀ p : α → Bool, all p [] = true) ∧
    (∀ p : Option (α → Bool), any p [] = false) ∧
    (∀ v : α, containsT v [] = false) :=
  ⟨fun _ => rfl, fun _ => rfl, fun _ _ => rfl, fun _ _ => rfl, rfl, rfl,
   fun _ => rfl, fun _ => rfl, fun _ => rfl⟩

theorem selectTakeRun_calls (f : α → β) (n : Int) (xs : List α) :
    ∀ i, (selectTakeRun f n i xs).2 = xs.length := by
  induction xs with
  | nil => intro i; rfl
  | cons x xs ih =>
    intro i
    by_cases h : i ≤ n <;> simp [selectTakeRun, h, ih]

theorem selectTakeRun_out_of_range (f : α → β) (n : Int) (xs : List α) :
    ∀ i, n < i → (selectTakeRun f n i xs).1 = [] := by
  induction xs with
  | nil => intro i _; rfl
  | cons x xs ih =>
    intro i hi
    have h : ¬ i ≤ n := by omega
    simp [selectTakeRun, h, ih i hi]

theorem selectTakeRun_out (f : α → β) (n : Int) (xs : List α) :
    ∀ i, 0 < i → i ≤ n + 1 →
      (selectTakeRun f n i xs).1 = (xs.map f).take (n + 1 - i).toNat := by
  induction xs with
  | nil => intro i _ _; simp [selectTakeRun]
  | cons x xs ih =>
    intro i hpos hle
    by_cases h : i ≤ n
    · have h1 : (n + 1 - i).toNat = (n + 1 - (i + 1)).toNat + 1 := by omega
      simp [selectTakeRun, h, ih (i + 1) (by omega) (by omega), h1]
    · have h2 : (n + 1 - i).toNat = 0 := by omega
      simp [selectTakeRun, h, h2, selectTakeRun_out_of_range f n xs i (by omega)]

/-- C10: for every n ≥ 0, fully iterating .select(f).take(n) invokes the
select mapper once per upstream element — the loop in take has no break,
so the whole upstream is consumed — while only the first n mapped
elements are yielded. -/
theorem take_consumes_whole_upstream (f : α → β) (n : Int) (xs : List α) (hn : 0 ≤ n) :
    (selectTakeRun f n 1 xs).2 = xs.length ∧
    (selectTakeRun f n 1 xs).1 = (xs.map f).take n.toNat := by
  refine ⟨selectTakeRun_calls f n xs 1, ?_⟩
  have h := selectTakeRun_out f n xs 1 (by omega) (by omega)
  have h1 : (n + 1 - (1 : Int)).toNat = n.toNat := by omega
  rw [h1] at h
  exact h

/-- Witness for C10: squaring mapper, n = 2, four upstream elements. -/
theorem take_consumes_whole_upstream_witness :
    (0 : Int) ≤ 2 ∧
    ((selectTakeRun (fun x => x * x) 2 1 [1, 2, 3, (4 : Int)]).2 = [1, 2, 3, (4 : Int)].length ∧
     (selectTakeRun (fun x => x * x) 2 1 [1, 2, 3, (4 : Int)]).1 =
       ([1, 2, 3, (4 : Int)].map (fun x => x * x)).take (2 : Int).toNat) :=
  ⟨by decide, take_consumes_whole_upstream (fun x => x * x) 2 [1, 2, 3, (4 : Int)] (by decide)⟩

/-- C4: divergence of the implemented intersect from the claimed key-set
semantics: with keySelector x ↦ x - 1, self = [2] and other = [1], the
implementation yields [2], because the derived key 1 of element 2 is
found among other's raw elements, whereas the claimed semantics yields
[], because the derived key set of other contains only 0. -/
theorem intersect_keyed_divergence :
    intersect (fun x => x - 1) [(2 : Int)] [1] = [2] ∧
    intersectSpec (fun x => x - 1) [(2 : Int)] [1] = [] ∧
    intersect (fun x => x - 1) [(2 : Int)] [1] ≠
      intersectSpec (fun x => x - 1) [(2 : Int)] [1] :=
  ⟨by decide, by decide, by decide⟩

/-- C7 counterexample: two structurally-equal objects that are different
instances share the default structural key JSON.stringify used by
memoize, yet distinct, union and intersect — whose Sets compare whole
values, i.e. instance identity — treat them as different, so the
set-like operators do not key by the structural encoding. -/
theorem default_key_counterexample :
    jsonEncode ⟨0, 5⟩ = jsonEncode ⟨1, 5⟩ ∧
    (⟨0, 5⟩ : Obj) ≠ ⟨1, 5⟩ ∧
    distinct [(⟨0, 5⟩ : Obj), ⟨1, 5⟩] = [⟨0, 5⟩, ⟨1, 5⟩] ∧
    union (fun o => o) [(⟨0, 5⟩ : Obj)] [⟨1, 5⟩] = [⟨0, 5⟩, ⟨1, 5⟩] ∧
    intersect (fun o => o) [(⟨0, 5⟩ : Obj)] [⟨1, 5⟩] = [] :=
  ⟨rfl, by decide, by decide, by decide, by decide⟩

/-- C7 amended: with no explicit key function, memoize derives its cache
key through the canonical structural encoding JSON.stringify, so two
structurally-equal elements that are different instances share one cache
key and fn runs once for the pair; the set-like operators distinct,
union and intersect instead default to whole-value (identity) equality
and treat such a pair as two distinct keys. -/
theorem default_key_split (fn : Obj → Int) (o1 o2 : Obj)
    (hval : o1.val = o2.val) (href : o1 ≠ o2) :
    jsonEncode o1 = jsonEncode o2 ∧
    (memoTraverse fn jsonEncode [o1, o2] [] []).2.2 = [jsonEncode o1] ∧
    distinct [o1, o2] = [o1, o2] ∧
    union (fun o => o) [o1] [o2] = [o1, o2] ∧
    intersect (fun o => o) [o1] [o2] = [] := by
  have hkey : jsonEncode o2 = jsonEncode o1 := by simp [jsonEncode, hval]
  refine ⟨hkey.symm, ?_, ?_, ?_, ?_⟩
  · simp [memoTraverse, alookup, hkey]
  · simp [distinct, distinctLoop, href, (Ne.symm href)]
  · simp [union, unionLoop, (Ne.symm href)]
  · simp [intersect, href]

/-- Witness for C7 amended at two instances with equal structure. -/
theorem default_key_split_witness :
    ((⟨0, 5⟩ : Obj).val = (⟨1, 5⟩ : Obj).val ∧ (⟨0, 5⟩ : Obj) ≠ ⟨1, 5⟩) ∧
    (jsonEncode ⟨0, 5⟩ = jsonEncode ⟨1, 5⟩ ∧
     (memoTraverse (fun o => o.val) jsonEncode [(⟨0, 5⟩ : Obj), ⟨1, 5⟩] [] []).2.2 =
       [jsonEncode ⟨0, 5⟩] ∧
     distinct [(⟨0, 5⟩ : Obj), ⟨1, 5⟩] = [⟨0, 5⟩, ⟨1, 5⟩] ∧
     union (fun o => o) [(⟨0, 5⟩ : Obj)] [⟨1, 5⟩] = [⟨0, 5⟩, ⟨1, 5⟩] ∧
     intersect (fun o => o) [(⟨0, 5⟩ : Obj)] [⟨1, 5⟩] = []) :=
  ⟨⟨rfl, by decide⟩,
   default_key_split (fun o => o.val) ⟨0, 5⟩ ⟨1, 5⟩ rfl (by decide)⟩

theorem unionLoop_append [DecidableEq κ] (key : α → κ) (a b : List α) :
    ∀ seen, unionLoop key seen (a ++ b) =
      ((unionLoop key seen a).1 ++ (unionLoop key (unionLoop key seen a).2 b).1,
       (unionLoop key (unionLoop key seen a).2 b).2) := by
  induction a with
  | nil => intro seen; simp [unionLoop]
  | cons x xs ih =>
    intro seen
    by_cases h : key x ∈ seen <;> simp [unionLoop, h, ih]

theorem unionLoop_firstSeenDedup [DecidableEq κ] (key : α → κ) (l : List α) :
    ∀ seen, (unionLoop key seen l).1 =
      firstSeenDedup key (l.filter (fun y => !decide (key y ∈ seen))) := by
  induction l with
  | nil => intro seen; simp [unionLoop, firstSeenDedup]
  | cons x xs ih =>
    intro seen
    by_cases h : key x ∈ seen
    · simp [unionLoop, h, ih]
    · rw [List.filter_cons_of_pos (by simp [h]), firstSeenDedup]
      simp only [unionLoop, if_neg h]
      rw [ih (key x :: seen), List.filter_filter]
      congr 2
      apply List.filter_congr
      intro y _
      by_cases h1 : key y = key x <;> by_cases h2 : key y ∈ seen <;>
        simp [List.mem_cons, h1, h2]

/-- C5: union yields the distinct elements of self followed by the
not-yet-seen distinct elements of other, first-seen order across both,
with equivalence determined by the derived key (the default key being
the element itself, key = identity): it equals the first-seen-order
deduplication by key of self ++ other. -/
theorem union_eq_firstSeenDedup [DecidableEq κ] (key : α → κ) (self other : List α) :
    union key self other = firstSeenDedup key (self ++ other) := by
  have h := unionLoop_append key self other []
  have h2 := unionLoop_firstSeenDedup key (self ++ other) []
  simp only [union]
  have : (unionLoop key [] (self ++ other)).1 =
      (unionLoop key [] self).1 ++ (unionLoop key (unionLoop key [] self).2 other).1 := by
    rw [h]
  rw [← this, h2]
  congr 1
  apply List.filter_eq_self.mpr
  intro y _
  simp

theorem memoTraverse_alookup [DecidableEq κ] (fn : α → β) (key : α → κ) (xs : List α) :
    ∀ (c : List (κ × β)) (calls : List κ) (k : κ),
      alookup k (memoTraverse fn key xs c calls).2.1 =
        (match alookup k c with
         | some v => some v
         | none => (xs.find? (fun y => decide (key y = k))).map fn) := by
  induction xs with
  | nil =>
    intro c calls k
    simp only [memoTraverse, List.find?_nil]
    cases alookup k c <;> simp
  | cons x xs ih =>
    intro c calls k
    cases hx : alookup (key x) c with
    | some v =>
      simp only [memoTraverse, hx]
      rw [ih]
      cases hk : alookup k c with
      | some w => simp
      | none =>
        have hne : ¬ (key x = k) := by
          intro he; rw [he, hk] at hx; exact Option.noConfusion hx
        rw [List.find?_cons_of_neg _ (by simpa using hne)]
    | none =>
      simp only [memoTraverse, hx]
      rw [ih]
      by_cases hk : k = key x
      · have h1 : alookup k ((key x, fn x) :: c) = some (fn x) := by simp [alookup, hk]
        have h2 : alookup k c = none := by rw [hk]; exact hx
        rw [h1, h2, List.find?_cons_of_pos _ (by simp [hk])]
        simp
      · have h1 : alookup k ((key x, fn x) :: c) = alookup k c := by simp [alookup, hk]
        rw [h1, List.find?_cons_of_neg _ (by simpa using Ne.symm hk)]

theorem memoTraverse_out [DecidableEq κ] (fn : α → β) (key : α → κ) :
    ∀ (xs : List α) (c : List (κ × β)) (calls : List κ),
      (memoTraverse fn key xs c calls).1 = xs.map (memoVal fn key c xs) := by
  intro xs
  induction xs with
  | nil => intro c calls; simp [memoTraverse]
  | cons x xs ih =>
    intro c calls
    cases hx : alookup (key x) c with
    | some v =>
      simp only [memoTraverse, hx, List.map_cons]
      rw [List.cons_eq_cons]
      refine ⟨?_, ?_⟩
      · simp [memoVal, hx]
      · rw [ih]
        apply List.map_congr_left
        intro z hz
        simp only [memoVal]
        cases hz2 : alookup (key z) c with
        | some w => rfl
        | none =>
          have hne : ¬ (key x = key z) := by
            intro he; rw [he, hz2] at hx; exact Option.noConfusion hx
          rw [List.find?_cons_of_neg _ (by simpa using hne)]
    | none =>
      simp only [memoTraverse, hx, List.map_cons]
      rw [List.cons_eq_cons]
      refine ⟨?_, ?_⟩
      · simp [memoVal, hx]
      · rw [ih]
        apply List.map_congr_left
        intro z hz
        simp only [memoVal]
        by_cases hz1 : key z = key x
        · have h1 : alookup (key z) ((key x, fn x) :: c) = some (fn x) := by
            simp [alookup, hz1]
          rw [h1, hz1, hx, List.find?_cons_of_pos _ (by simp)]
          simp
        · have h1 : alookup (key z) ((key x, fn x) :: c) = alookup (key z) c := by
            simp [alookup, hz1]
          rw [h1]
          cases hz2 : alookup (key z) c with
          | some w => rfl
          | none => rw [List.find?_cons_of_neg _ (by simpa using Ne.symm hz1)]

theorem memoTraverse_calls [DecidableEq κ] (fn : α → β) (key : α → κ) :
    ∀ (xs : List α) (c : List (κ × β)) (calls : List κ),
      (∀ k, k ∈ calls ↔ (alookup k c).isSome) → calls.Nodup →
      (∀ k, k ∈ (memoTraverse fn key xs c calls).2.2 ↔
        (alookup k (memoTraverse fn key xs c calls).2.1).isSome) ∧
      (memoTraverse fn key xs c calls).2.2.Nodup := by
  intro xs
  induction xs with
  | nil => intro c calls h hn; exact ⟨h, hn⟩
  | cons x xs ih =>
    intro c calls h hn
    cases hx : alookup (key x) c with
    | some v =>
      simp only [memoTraverse, hx]
      exact ih c calls h hn
    | none =>
      simp only [memoTraverse, hx]
      apply ih
      · intro k
        by_cases hk : k = key x
        · subst hk
          simp [alookup]
        · simp only [List.mem_cons, alookup, if_neg hk, h k]
          constructor
          · rintro (he | hm)
            · exact absurd he hk
            · exact hm
          · intro hs; exact Or.inr hs
      · refine List.nodup_cons.mpr ⟨?_, hn⟩
        intro hmem
        have := (h (key x)).mp hmem
        rw [hx] at this
        exact Option.noConfusion (Option.isSome_iff_exists.mp this).choose_spec

theorem memoVal_complete [DecidableEq κ] (fn : α → β) (key : α → κ) (xs : List α)
    (c : List (κ × β))
    (hc : ∀ k, alookup k c = (xs.find? (fun y => decide (key y = k))).map fn) :
    xs.map (memoVal fn key c xs) = memoSpec fn key xs := by
  apply List.map_congr_left
  intro x hx
  simp only [memoVal, hc (key x)]
  have hs : (xs.find? (fun y => decide (key y = key x))).isSome :=
    List.find?_isSome.mpr ⟨x, hx, by exact decide_eq_true rfl⟩
  obtain ⟨y, hy⟩ := Option.isSome_iff_exists.mp hs
  rw [hy]
  simp

theorem memoVal_empty [DecidableEq κ] (fn : α → β) (key : α → κ) (xs : List α) :
    xs.map (memoVal fn key [] xs) = memoSpec fn key xs := by
  apply List.map_congr_left
  intro x _
  simp [memoVal, alookup, memoSpec]

theorem memoLifetime_invariant [DecidableEq κ] (fn : α → β) (key : α → κ)
    (xs : List α) :
    ∀ m, 1 ≤ m →
      (∀ k, alookup k (memoLifetime fn key xs m).cache =
        (xs.find? (fun y => decide (key y = k))).map fn) ∧
      (∀ k, k ∈ (memoLifetime fn key xs m).calls ↔
        (alookup k (memoLifetime fn key xs m).cache).isSome) ∧
      (memoLifetime fn key xs m).calls.Nodup ∧
      (∀ out ∈ (memoLifetime fn key xs m).outs, out = memoSpec fn key xs) := by
  intro m
  induction m with
  | zero => intro h; exact absurd h (by omega)
  | succ m ih =>
    intro _
    by_cases hm : 1 ≤ m
    · obtain ⟨hcache, hcalls, hnodup, houts⟩ := ih hm
      have hcache2 : ∀ k, alookup k (memoLifetime fn key xs (m + 1)).cache =
          (xs.find? (fun y => decide (key y = k))).map fn := by
        intro k
        simp only [memoLifetime]
        rw [memoTraverse_alookup, hcache k]
        cases (xs.find? (fun y => decide (key y = k))) <;> simp
      have hcc := memoTraverse_calls fn key xs (memoLifetime fn key xs m).cache
        (memoLifetime fn key xs m).calls hcalls hnodup
      refine ⟨hcache2, hcc.1, hcc.2, ?_⟩
      intro out hout
      simp only [memoLifetime, List.mem_append, List.mem_singleton] at hout
      rcases hout with hold | hnew
      · exact houts out hold
      · rw [hnew, memoTraverse_out]
        exact memoVal_complete fn key xs _ hcache
    · have hm0 : m = 0 := by omega
      subst hm0
      have hcache2 : ∀ k, alookup k (memoLifetime fn key xs 1).cache =
          (xs.find? (fun y => decide (key y = k))).map fn := by
        intro k
        simp only [memoLifetime]
        rw [memoTraverse_alookup]
        simp [alookup]
      have hcc := memoTraverse_calls fn key xs ([] : List (κ × β)) ([] : List κ)
        (by intro k; simp [alookup]) List.nodup_nil
      refine ⟨hcache2, hcc.1, hcc.2, ?_⟩
      intro out hout
      simp only [memoLifetime, List.mem_append, List.mem_singleton,
        List.not_mem_nil, false_or] at hout
      rw [hout, memoTraverse_out]
      exact memoVal_empty fn key xs

/-- C2: over the whole lifetime of one memoized Sequence — any positive
number m of full traversals of the same input — fn is invoked exactly
once per distinct key (the call log is duplicate-free and holds exactly
the keys of the input, so its length is the number k of distinct keys),
and every traversal's output has the length and order of the input, each
occurrence of a repeated key yielding the result cached by the first
computation for that key. -/
theorem memoize_once_per_key [DecidableEq κ] (fn : α → β) (key : α → κ)
    (xs : List α) (m : Nat) (hm : 1 ≤ m) :
    (memoLifetime fn key xs m).calls.Nodup ∧
    (∀ k, k ∈ (memoLifetime fn key xs m).calls ↔ k ∈ xs.map key) ∧
    (memoLifetime fn key xs m).calls.length = (xs.map key).dedup.length ∧
    (∀ out ∈ (memoLifetime fn key xs m).outs,
      out = memoSpec fn key xs ∧ out.length = xs.length) := by
  obtain ⟨hcache, hcalls, hnodup, houts⟩ := memoLifetime_invariant fn key xs m hm
  have hmem : ∀ k, k ∈ (memoLifetime fn key xs m).calls ↔ k ∈ xs.map key := by
    intro k
    rw [hcalls k, hcache k]
    simp only [Option.isSome_map']
    rw [List.find?_isSome]
    constructor
    · rintro ⟨y, hy, hk⟩
      exact List.mem_map.mpr ⟨y, hy, by simpa using hk⟩
    · intro hk
      obtain ⟨y, hy, hk2⟩ := List.mem_map.mp hk
      exact ⟨y, hy, by simpa using hk2⟩
  refine ⟨hnodup, hmem, ?_, ?_⟩
  · have hsub1 : (memoLifetime fn key xs m).calls ⊆ (xs.map key).dedup := by
      intro k hk
      exact List.mem_dedup.mpr ((hmem k).mp hk)
    have hsub2 : (xs.map key).dedup ⊆ (memoLifetime fn key xs m).calls := by
      intro k hk
      exact (hmem k).mpr (List.mem_dedup.mp hk)
    exact Nat.le_antisymm
      ((List.subperm_of_subset hnodup hsub1).length_le)
      ((List.subperm_of_subset (List.nodup_dedup _) hsub2).length_le)
  · intro out hout
    refine ⟨houts out hout, ?_⟩
    rw [houts out hout]
    simp [memoSpec]

/-- Witness for C2: squaring over [1, 2, 3, 1, 2, 3] with the identity
key, two full traversals. -/
theorem memoize_once_per_key_witness :
    1 ≤ 2 ∧
    ((memoLifetime (fun x => x * x) (fun x => x) [1, 2, 3, 1, 2, (3 : Int)] 2).calls.Nodup ∧
     (∀ k, k ∈ (memoLifetime (fun x => x * x) (fun x => x) [1, 2, 3, 1, 2, (3 : Int)] 2).calls ↔
       k ∈ [1, 2, 3, 1, 2, (3 : Int)].map (fun x => x)) ∧
     (memoLifetime (fun x => x * x) (fun x => x) [1, 2, 3, 1, 2, (3 : Int)] 2).calls.length =
       ([1, 2, 3, 1, 2, (3 : Int)].map (fun x => x)).dedup.length ∧
     (∀ out ∈ (memoLifetime (fun x => x * x) (fun x => x) [1, 2, 3, 1, 2, (3 : Int)] 2).outs,
       out = memoSpec (fun x => x * x) (fun x => x) [1, 2, 3, 1, 2, (3 : Int)] ∧
       out.length = [1, 2, 3, 1, 2, (3 : Int)].length)) :=
  ⟨by decide,
   memoize_once_per_key (fun x => x * x) (fun x => x) [1, 2, 3, 1, 2, (3 : Int)] 2 (by decide)⟩

theorem asyncStep_preserves [DecidableEq κ] (key : α → κ) (x : α) (s : AState κ)
    (k : κ) (f : Nat) (h : alookup k s.cache = some f) :
    alookup k (asyncStep key x s).2.cache = some f := by
  cases hx : alookup (key x) s.cache with
  | some fid => simpa [asyncStep, hx] using h
  | none =>
    have hne : ¬ (k = key x) := by
      intro he; rw [he, hx] at h; exact Option.noConfusion h
    simpa [asyncStep, hx, alookup, hne] using h

theorem asyncStep_records [DecidableEq κ] (key : α → κ) (x : α) (s : AState κ) :
    alookup (key x) (asyncStep key x s).2.cache = some (asyncStep key x s).1 := by
  cases hx : alookup (key x) s.cache with
  | some fid => simp [asyncStep, hx]
  | none => simp [asyncStep, hx, alookup]

theorem asyncStep_calls [DecidableEq κ] (key : α → κ) (x : α) (s : AState κ)
    (hinv : ∀ k, k ∈ s.calls ↔ (alookup k s.cache).isSome) (hnd : s.calls.Nodup) :
    (∀ k, k ∈ (asyncStep key x s).2.calls ↔
      (alookup k (asyncStep key x s).2.cache).isSome) ∧
    (asyncStep key x s).2.calls.Nodup := by
  cases hx : alookup (key x) s.cache with
  | some fid =>
    simp only [asyncStep, hx]
    exact ⟨hinv, hnd⟩
  | none =>
    simp only [asyncStep, hx]
    constructor
    · intro k
      by_cases hk : k = key x
      · simp [alookup, hk]
      · simp only [List.mem_cons, alookup, if_neg hk, hinv k]
        constructor
        · rintro (he | hm)
          · exact absurd he hk
          · exact hm
        · intro hs; exact Or.inr hs
    · refine List.nodup_cons.mpr ⟨?_, hnd⟩
      intro hmem
      have := (hinv (key x)).mp hmem
      rw [hx] at this
      exact Option.noConfusion (Option.isSome_iff_exists.mp this).choose_spec

theorem interleave_invariant [DecidableEq κ] (key : α → κ) :
    ∀ (sch : List Bool) (xs ys : List α) (s : AState κ),
      (∀ k, k ∈ s.calls ↔ (alookup k s.cache).isSome) → s.calls.Nodup →
      (∀ k, k ∈ (interleave key sch xs ys s).2.2.calls ↔
        (alookup k (interleave key sch xs ys s).2.2.cache).isSome) ∧
      (interleave key sch xs ys s).2.2.calls.Nodup ∧
      (∀ k f, alookup k s.cache = some f →
        alookup k (interleave key sch xs ys s).2.2.cache = some f) ∧
      (∀ p ∈ (interleave key sch xs ys s).1 ++ (interleave key sch xs ys s).2.1,
        alookup p.1 (interleave key sch xs ys s).2.2.cache = some p.2) := by
  intro sch
  induction sch with
  | nil =>
    intro xs ys s hinv hnd
    exact ⟨hinv, hnd, fun k f h => h, by simp [interleave]⟩
  | cons b sch ih =>
    intro xs ys s hinv hnd
    cases b
    · cases ys with
      | nil => simpa only [interleave] using ih xs [] s hinv hnd
      | cons y ys =>
        have hstep := asyncStep_calls key y s hinv hnd
        have hrec := ih xs ys (asyncStep key y s).2 hstep.1 hstep.2
        simp only [interleave]
        refine ⟨hrec.1, hrec.2.1, ?_, ?_⟩
        · intro k f h
          exact hrec.2.2.1 k f (asyncStep_preserves key y s k f h)
        · intro p hp
          simp only [List.mem_append, List.mem_cons] at hp
          rcases hp with hp | hp | hp
          · exact hrec.2.2.2 p (List.mem_append.mpr (Or.inl hp))
          · rw [hp]
            exact hrec.2.2.1 (key y) (asyncStep key y s).1 (asyncStep_records key y s)
          · exact hrec.2.2.2 p (List.mem_append.mpr (Or.inr hp))
    · cases xs with
      | nil => simpa only [interleave] using ih [] ys s hinv hnd
      | cons x xs =>
        have hstep := asyncStep_calls key x s hinv hnd
        have hrec := ih xs ys (asyncStep key x s).2 hstep.1 hstep.2
        simp only [interleave]
        refine ⟨hrec.1, hrec.2.1, ?_, ?_⟩
        · intro k f h
          exact hrec.2.2.1 k f (asyncStep_preserves key x s k f h)
        · intro p hp
          simp only [List.cons_append, List.mem_cons, List.mem_append] at hp
          rcases hp with hp | hp | hp
          · rw [hp]
            exact hrec.2.2.1 (key x) (asyncStep key x s).1 (asyncStep_records key x s)
          · exact hrec.2.2.2 p (List.mem_append.mpr (Or.inl hp))
          · exact hrec.2.2.2 p (List.mem_append.mpr (Or.inr hp))

/-- C1: under every cooperative interleaving of two concurrent
traversals of one memoizeAsync Sequence — including a second pull for a
key that begins before the first resolves — each pull's promise is
recorded in the shared cache from the moment it is created (before it is
awaited), every pull for a given key receives that same promise, and fn
is invoked at most once per distinct key: the call log is
duplicate-free. -/
theorem memoizeAsync_single_flight [DecidableEq κ] (key : α → κ)
    (sch : List Bool) (xs ys : List α) :
    (interleave key sch xs ys ⟨[], 0, []⟩).2.2.calls.Nodup ∧
    (∀ p ∈ (interleave key sch xs ys ⟨[], 0, []⟩).1 ++
        (interleave key sch xs ys ⟨[], 0, []⟩).2.1,
      alookup p.1 (interleave key sch xs ys ⟨[], 0, []⟩).2.2.cache = some p.2) ∧
    (∀ p ∈ (interleave key sch xs ys ⟨[], 0, []⟩).1 ++
        (interleave key sch xs ys ⟨[], 0, []⟩).2.1,
      ∀ q ∈ (interleave key sch xs ys ⟨[], 0, []⟩).1 ++
        (interleave key sch xs ys ⟨[], 0, []⟩).2.1,
      p.1 = q.1 → p.2 = q.2) := by
  have h := interleave_invariant key sch xs ys ⟨[], 0, []⟩
    (by intro k; simp [alookup]) List.nodup_nil
  refine ⟨h.2.1, h.2.2.2, ?_⟩
  intro p hp q hq hpq
  have h1 := h.2.2.2 p hp
  have h2 := h.2.2.2 q hq
  rw [hpq] at h1
  exact Option.some_inj.mp (h1.symm.trans h2)

/-- Witness for C1: identity key, both traversals over [7], schedule
that interleaves them; one invocation, both consumers get promise 0. -/
theorem memoizeAsync_single_flight_witness :
    (interleave (fun x => x) [true, false] [(7 : Int)] [7] ⟨[], 0, []⟩).2.2.calls.Nodup ∧
    (∀ p ∈ (interleave (fun x => x) [true, false] [(7 : Int)] [7] ⟨[], 0, []⟩).1 ++
        (interleave (fun x => x) [true, false] [(7 : Int)] [7] ⟨[], 0, []⟩).2.1,
      alookup p.1 (interleave (fun x => x) [true, false] [(7 : Int)] [7] ⟨[], 0, []⟩).2.2.cache =
        some p.2) ∧
    (∀ p ∈ (interleave (fun x => x) [true, false] [(7 : Int)] [7] ⟨[], 0, []⟩).1 ++
        (interleave (fun x => x) [true, false] [(7 : Int)] [7] ⟨[], 0, []⟩).2.1,
      ∀ q ∈ (interleave (fun x => x) [true, false] [(7 : Int)] [7] ⟨[], 0, []⟩).1 ++
        (interleave (fun x => x) [true, false] [(7 : Int)] [7] ⟨[], 0, []⟩).2.1,
      p.1 = q.1 → p.2 = q.2) :=
  memoizeAsync_single_flight (fun x => x) [true, false] [(7 : Int)] [7]

theorem decide_and_of_imp {p q : Prop} [Decidable p] [Decidable q] (h : p → q) :
    (decide p && decide q) = decide p := by
  by_cases hp : p
  · rw [decide_eq_true hp, decide_eq_true (h hp), Bool.and_self]
  · rw [decide_eq_false hp, Bool.false_and]

theorem decide_and_of_not {p q : Prop} [Decidable p] [Decidable q] (h : p → ¬ q) :
    (decide p && decide q) = false := by
  by_cases hp : p
  · rw [decide_eq_true hp, decide_eq_false (h hp), Bool.and_false]
  · rw [decide_eq_false hp, Bool.false_and]

theorem partition_perm [LinearOrder κ] (s : α → κ) (p : κ) (l : List α) :
    List.Perm
      (l.filter (fun a => decide (s a < p)) ++
       (l.filter (fun a => decide (s a = p)) ++
        l.filter (fun a => decide (p < s a)))) l := by
  have h1 := List.filter_append_perm (fun a => decide (s a < p)) l
  refine List.Perm.trans (List.Perm.append_left _ ?_) h1
  have h2 := List.filter_append_perm (fun a => decide (s a = p))
    (l.filter (fun a => !decide (s a < p)))
  rw [List.filter_filter, List.filter_filter] at h2
  have e1 : l.filter (fun a => decide (s a = p) && !decide (s a < p)) =
      l.filter (fun a => decide (s a = p)) := by
    apply List.filter_congr
    intro a _
    by_cases h : s a = p <;> simp [h, lt_irrefl]
  have e2 : l.filter (fun a => !decide (s a = p) && !decide (s a < p)) =
      l.filter (fun a => decide (p < s a)) := by
    apply List.filter_congr
    intro a _
    rcases lt_trichotomy (s a) p with h | h | h
    · simp [h, ne_of_lt h, asymm h]
    · simp [h, lt_irrefl]
    · simp [ne_of_gt h, asymm h, h]
  rw [e1, e2] at h2
  exact h2

theorem orderBy_perm [LinearOrder κ] (s : α → κ) (l : List α) :
    List.Perm (orderBy s l) l := by
  induction l using orderBy.induct s with
  | case1 => simp [orderBy]
  | case2 x => simp [orderBy]
  | case3 x y rest ih1 ih2 =>
    rw [orderBy, List.append_assoc]
    exact ((ih1.append ((List.Perm.refl _).append ih2))).trans (partition_perm s _ _)

theorem orderBy_sorted [LinearOrder κ] (s : α → κ) (l : List α) :
    (orderBy s l).Pairwise (fun a b => s a ≤ s b) := by
  induction l using orderBy.induct s with
  | case1 => simp [orderBy]
  | case2 x => simp [orderBy]
  | case3 x y rest ih1 ih2 =>
    rw [orderBy, List.append_assoc, List.pairwise_append]
    refine ⟨ih1, ?_, ?_⟩
    · rw [List.pairwise_append]
      refine ⟨?_, ih2, ?_⟩
      · apply List.pairwise_of_forall_mem_list
        intro a ha b hb
        have ha3 : s a = s (rest.getLastD y) :=
          of_decide_eq_true (List.mem_filter.mp ha).2
        have hb3 : s b = s (rest.getLastD y) :=
          of_decide_eq_true (List.mem_filter.mp hb).2
        rw [ha3, hb3]
      · intro a ha b hb
        have ha3 : s a = s (rest.getLastD y) :=
          of_decide_eq_true (List.mem_filter.mp ha).2
        have hb4 : s (rest.getLastD y) < s b :=
          of_decide_eq_true (List.mem_filter.mp ((orderBy_perm s _).mem_iff.mp hb)).2
        rw [ha3]; exact le_of_lt hb4
    · intro a ha b hb
      have ha4 : s a < s (rest.getLastD y) :=
        of_decide_eq_true (List.mem_filter.mp ((orderBy_perm s _).mem_iff.mp ha)).2
      rcases List.mem_append.mp hb with hb | hb
      · have hb3 : s b = s (rest.getLastD y) :=
          of_decide_eq_true (List.mem_filter.mp hb).2
        rw [hb3]; exact le_of_lt ha4
      · have hb4 : s (rest.getLastD y) < s b :=
          of_decide_eq_true (List.mem_filter.mp ((orderBy_perm s _).mem_iff.mp hb)).2
        exact le_of_lt (ha4.trans hb4)

theorem orderBy_stable [LinearOrder κ] (s : α → κ) (k : κ) (l : List α) :
    (orderBy s l).filter (fun a => decide (s a = k)) =
      l.filter (fun a => decide (s a = k)) := by
  induction l using orderBy.induct s with
  | case1 => simp [orderBy]
  | case2 x => simp [orderBy]
  | case3 x y rest ih1 ih2 =>
    rw [orderBy, List.filter_append, List.filter_append, ih1, ih2,
      List.filter_filter, List.filter_filter, List.filter_filter]
    rcases lt_trichotomy k (s (rest.getLastD y)) with h | h | h
    · have e1 : ((x :: y :: rest).filter
          (fun a => decide (s a = k) && decide (s a < s (rest.getLastD y)))) =
          (x :: y :: rest).filter (fun a => decide (s a = k)) :=
        List.filter_congr (fun a _ => decide_and_of_imp (fun h2 => by rw [h2]; exact h))
      have e2 : ((x :: y :: rest).filter
          (fun a => decide (s a = k) && decide (s a = s (rest.getLastD y)))) = [] := by
        rw [List.filter_eq_nil_iff]
        intro a _
        rw [decide_and_of_not (fun h2 h3 => ne_of_lt h (h2.symm.trans h3))]
        simp
      have e3 : ((x :: y :: rest).filter
          (fun a => decide (s a = k) && decide (s (rest.getLastD y) < s a))) = [] := by
        rw [List.filter_eq_nil_iff]
        intro a _
        rw [decide_and_of_not (fun h2 h3 => asymm h (by rw [h2] at h3; exact h3))]
        simp
      rw [e1, e2, e3, List.append_nil, List.append_nil]
    · have e1 : ((x :: y :: rest).filter
          (fun a => decide (s a = k) && decide (s a < s (rest.getLastD y)))) = [] := by
        rw [List.filter_eq_nil_iff]
        intro a _
        rw [decide_and_of_not (fun h2 => by rw [h2, h]; exact lt_irrefl _)]
        simp
      have e2 : ((x :: y :: rest).filter
          (fun a => decide (s a = k) && decide (s a = s (rest.getLastD y)))) =
          (x :: y :: rest).filter (fun a => decide (s a = k)) :=
        List.filter_congr (fun a _ => decide_and_of_imp (fun h2 => h2.trans h))
      have e3 : ((x :: y :: rest).filter
          (fun a => decide (s a = k) && decide (s (rest.getLastD y) < s a))) = [] := by
        rw [List.filter_eq_nil_iff]
        intro a _
        rw [decide_and_of_not (fun h2 => by rw [h2, h]; exact lt_irrefl _)]
        simp
      rw [e1, e2, e3, List.nil_append, List.append_nil]
    · have e1 : ((x :: y :: rest).filter
          (fun a => decide (s a = k) && decide (s a < s (rest.getLastD y)))) = [] := by
        rw [List.filter_eq_nil_iff]
        intro a _
        rw [decide_and_of_not (fun h2 h3 => asymm h (by rw [h2] at h3; exact h3))]
        simp
      have e2 : ((x :: y :: rest).filter
          (fun a => decide (s a = k) && decide (s a = s (rest.getLastD y)))) = [] := by
        rw [List.filter_eq_nil_iff]
        intro a _
        rw [decide_and_of_not (fun h2 h3 => ne_of_gt h (h2.symm.trans h3))]
        simp
      have e3 : ((x :: y :: rest).filter
          (fun a => decide (s a = k) && decide (s (rest.getLastD y) < s a))) =
          (x :: y :: rest).filter (fun a => decide (s a = k)) :=
        List.filter_congr (fun a _ => decide_and_of_imp (fun h2 => by rw [h2]; exact h))
      rw [e1, e2, e3, List.nil_append, List.nil_append]

theorem orderByDescending_eq_dual [LinearOrder κ] (s : α → κ) (l : List α) :
    orderByDescending s l = orderBy (fun a => OrderDual.toDual (s a)) l := by
  induction l using orderByDescending.induct s with
  | case1 => simp [orderBy, orderByDescending]
  | case2 x => simp [orderBy, orderByDescending]
  | case3 x y rest ih1 ih2 =>
    rw [orderByDescending, orderBy, ih1, ih2]
    have e1 : ((x :: y :: rest).filter
        (fun a => decide (OrderDual.toDual (s a) < OrderDual.toDual (s (rest.getLastD y))))) =
        (x :: y :: rest).filter (fun a => decide (s (rest.getLastD y) < s a)) :=
      List.filter_congr (fun a _ => by
        rw [decide_eq_decide]
        exact OrderDual.toDual_lt_toDual)
    have e2 : ((x :: y :: rest).filter
        (fun a => decide (OrderDual.toDual (s a) = OrderDual.toDual (s (rest.getLastD y))))) =
        (x :: y :: rest).filter (fun a => decide (s a = s (rest.getLastD y))) :=
      List.filter_congr (fun a _ => by
        rw [decide_eq_decide]
        exact OrderDual.toDual_inj)
    have e3 : ((x :: y :: rest).filter
        (fun a => decide (OrderDual.toDual (s (rest.getLastD y)) < OrderDual.toDual (s a)))) =
        (x :: y :: rest).filter (fun a => decide (s a < s (rest.getLastD y))) :=
      List.filter_congr (fun a _ => by
        rw [decide_eq_decide]
        exact OrderDual.toDual_lt_toDual)
    rw [e1, e2, e3]

theorem orderByDescending_perm [LinearOrder κ] (s : α → κ) (l : List α) :
    List.Perm (orderByDescending s l) l := by
  rw [orderByDescending_eq_dual]
  exact orderBy_perm _ l

theorem orderByDescending_sorted [LinearOrder κ] (s : α → κ) (l : List α) :
    (orderByDescending s l).Pairwise (fun a b => s b ≤ s a) := by
  rw [orderByDescending_eq_dual]
  exact (orderBy_sorted (fun a => OrderDual.toDual (s a)) l).imp
    (fun hab => OrderDual.toDual_le_toDual.mp hab)

theorem orderByDescending_stable [LinearOrder κ] (s : α → κ) (k : κ) (l : List α) :
    (orderByDescending s l).filter (fun a => decide (s a = k)) =
      l.filter (fun a => decide (s a = k)) := by
  rw [orderByDescending_eq_dual]
  have h := orderBy_stable (fun a => OrderDual.toDual (s a)) (OrderDual.toDual k) l
  have e : ∀ (l' : List α),
      l'.filter (fun a => decide (OrderDual.toDual (s a) = OrderDual.toDual k)) =
      l'.filter (fun a => decide (s a = k)) := fun l' =>
    List.filter_congr (fun a _ => by rw [decide_eq_decide]; exact OrderDual.toDual_inj)
  simp only [e] at h
  exact h

/-- C3: for every finite input and every key selector, orderBy and
orderByDescending output a permutation of the input; adjacent derived
keys in the output are non-decreasing respectively non-increasing; and
elements with equal derived keys keep their original relative input
order (filtering the output by any key value k gives exactly the input
filtered by k). -/
theorem ordering_contract [LinearOrder κ] (s : α → κ) (l : List α) (k : κ) :
    List.Perm (orderBy s l) l ∧
    (orderBy s l).Chain' (fun a b => s a ≤ s b) ∧
    (orderBy s l).filter (fun a => decide (s a = k)) =
      l.filter (fun a => decide (s a = k)) ∧
    List.Perm (orderByDescending s l) l ∧
    (orderByDescending s l).Chain' (fun a b => s b ≤ s a) ∧
    (orderByDescending s l).filter (fun a => decide (s a = k)) =
      l.filter (fun a => decide (s a = k)) :=
  ⟨orderBy_perm s l, (orderBy_sorted s l).chain', orderBy_stable s k l,
   orderByDescending_perm s l, (orderByDescending_sorted s l).chain',
   orderByDescending_stable s k l⟩

end Qinn
